import Mathlib

set_option maxHeartbeats 1000000

/-!
Shallow embedding of the note-link engine of the `fastapi_nb` repository
(src/utils.py, src/plsnb.py, src/schemas.py, src/database.py, src/models.py).

Strings are modelled as `List Char`, uuids and clock instants as `Nat`.
The relational store is a `List Note` in insertion order: SQLAlchemy
`query(Note).filter(cond).all()` is `List.filter`, `.first()` is
`List.find?`, `session.add` appends a row and `session.delete` removes it.
`database.py` builds every session with `autoflush=False`, so a query issued
while inserts are still pending does not see them; pending rows become
visible only at `commit()`.  The Redis cache is an association list
mapping a key to a value together with an absolute expiry instant.
-/

/-- One step of the regex piece `[^\]]+` from src/utils.py: split `cs` into
its maximal leading run of characters different from `]` and the rest. -/
def takeNonRB : List Char → List Char × List Char
  | [] => ([], [])
  | c :: cs =>
    if c = ']' then ([], c :: cs)
    else
      let p := takeNonRB cs
      (c :: p.1, p.2)

/-- Attempt of the pattern `([^\]]+)\]\]` at the current position, the part
of `\[\[([^\]]+)\]\]` that follows the two opening brackets.  Greedy with no
useful backtracking: the run may not contain `]`, so shrinking it can never
satisfy the following `\]\]`.  Returns the captured group and the input
remaining after the match. -/
def matchLink (cs : List Char) : Option (List Char × List Char) :=
  match takeNonRB cs with
  | ([], _) => none
  | (c :: run, ']' :: ']' :: rest) => some (c :: run, rest)
  | _ => none

/-- Scanner of Python `re.findall(r"\[\[([^\]]+)\]\]", content)`: try the
pattern at each position, on failure advance one character, on success
record the group and continue after the match (matches never overlap).
The fuel argument only bounds the recursion; every step consumes at least
one character, so fuel equal to the input length is always sufficient. -/
def extractLinksFuel : Nat → List Char → List (List Char)
  | 0, _ => []
  | _ + 1, [] => []
  | _ + 1, [_] => []
  | fuel + 1, c1 :: c2 :: cs =>
    if c1 = '[' ∧ c2 = '[' then
      match matchLink cs with
      | some (run, rest) => run :: extractLinksFuel fuel rest
      | none => extractLinksFuel fuel (c2 :: cs)
    else extractLinksFuel fuel (c2 :: cs)

/-- src/utils.py, `extract_links`: `re.findall(r"\[\[([^\]]+)\]\]", content)`. -/
def extract_links (content : List Char) : List (List Char) :=
  extractLinksFuel content.length content

/-- src/utils.py, `extract_note_links`:
`re.findall(r'\[\[([^\]]+)\]\]', content)` — the pattern is character for
character the same one `extract_links` uses, only the Python quoting style
of the raw string literal differs. -/
def extract_note_links (content : List Char) : List (List Char) :=
  extractLinksFuel content.length content

theorem takeNonRB_append (cs : List Char) :
    (takeNonRB cs).1 ++ (takeNonRB cs).2 = cs := by
  induction cs with
  | nil => rfl
  | cons c cs ih =>
    by_cases hc : c = ']'
    · simp [takeNonRB, hc]
    · simp [takeNonRB, hc, ih]

theorem matchLink_length {cs run rest : List Char}
    (h : matchLink cs = some (run, rest)) : rest.length < cs.length := by
  have hsplit := takeNonRB_append cs
  unfold matchLink at h
  split at h
  · exact absurd h (by simp)
  · rename_i heq
    rw [heq] at hsplit
    injection h with h
    injection h with h1 h2
    subst h2
    rw [← hsplit]
    simp
    omega
  · exact absurd h (by simp)

theorem takeNonRB_clean {t : List Char} (ht : ∀ c ∈ t, ¬ c = ']') (rest : List Char) :
    takeNonRB (t ++ ']' :: rest) = (t, ']' :: rest) := by
  induction t with
  | nil => simp [takeNonRB]
  | cons c t ih =>
    have hc : ¬ c = ']' := ht c (by simp)
    have ih' := ih (fun c hc => ht c (by simp [hc]))
    simp [takeNonRB, hc, ih']

theorem extractLinksFuel_mono :
    ∀ f1 f2 : Nat, ∀ cs : List Char, cs.length ≤ f1 → cs.length ≤ f2 →
      extractLinksFuel f1 cs = extractLinksFuel f2 cs := by
  intro f1
  induction f1 with
  | zero =>
    intro f2 cs h1 _
    have : cs = [] := List.length_eq_zero.mp (Nat.le_zero.mp h1)
    subst this
    cases f2 <;> rfl
  | succ f ih =>
    intro f2 cs h1 h2
    match cs with
    | [] => cases f2 <;> rfl
    | [c] =>
      cases f2 with
      | zero => simp at h2
      | succ f2 => rfl
    | c1 :: c2 :: cs' =>
      cases f2 with
      | zero => simp at h2
      | succ f2 =>
        have hl1 : cs'.length + 2 ≤ f + 1 := by simpa using h1
        have hl2 : cs'.length + 2 ≤ f2 + 1 := by simpa using h2
        show extractLinksFuel (f + 1) (c1 :: c2 :: cs')
            = extractLinksFuel (f2 + 1) (c1 :: c2 :: cs')
        simp only [extractLinksFuel]
        by_cases hbr : c1 = '[' ∧ c2 = '['
        · simp only [if_pos hbr]
          cases hm : matchLink cs' with
          | some pr =>
            obtain ⟨run, rest⟩ := pr
            have hlen := matchLink_length hm
            have e := ih f2 rest (by omega) (by omega)
            simp [e]
          | none =>
            exact ih f2 (c2 :: cs') (by simp; omega) (by simp; omega)
        · simp only [if_neg hbr]
          exact ih f2 (c2 :: cs') (by simp; omega) (by simp; omega)

/-- Adjacent-opener scan, helper for stating where the scanner can start a
match: `hasLLAux prev l` is true when `prev :: l` contains two adjacent `[`
characters. -/
def hasLLAux : Char → List Char → Bool
  | _, [] => false
  | prev, c :: cs => (prev = '[' && c = '[') || hasLLAux c cs

/-- `hasLL l` is true when `l` contains two adjacent `[` characters — the
only shape at which the scanner can begin a match attempt. -/
def hasLL : List Char → Bool
  | [] => false
  | c :: cs => hasLLAux c cs

theorem extract_links_cons2_skip {c1 c2 : Char} (h : ¬ (c1 = '[' ∧ c2 = '['))
    (cs : List Char) : extract_links (c1 :: c2 :: cs) = extract_links (c2 :: cs) := by
  show extractLinksFuel (cs.length + 1 + 1) (c1 :: c2 :: cs) = _
  simp only [extractLinksFuel]
  rw [if_neg h]
  rfl

theorem extract_links_gap_skip :
    ∀ g rest : List Char, hasLL (g ++ rest.take 1) = false →
      extract_links (g ++ rest) = extract_links rest := by
  intro g
  induction g with
  | nil => intro rest _; rfl
  | cons c g' ih =>
    intro rest h
    cases g' with
    | nil =>
      cases rest with
      | nil => rfl
      | cons r0 rest' =>
        have hx : hasLLAux c [r0] = false := h
        simp only [hasLLAux, Bool.or_false] at hx
        refine extract_links_cons2_skip ?_ rest'
        intro hc
        rw [hc.1, hc.2] at hx
        simp at hx
    | cons c2 g'' =>
      have hx : hasLLAux c (c2 :: (g'' ++ rest.take 1)) = false := h
      simp only [hasLLAux, Bool.or_eq_false_iff] at hx
      have h1 : ¬ (c = '[' ∧ c2 = '[') := by
        intro hc
        have hy := hx.1
        rw [hc.1, hc.2] at hy
        simp at hy
      have h2 : hasLL ((c2 :: g'') ++ rest.take 1) = false := hx.2
      calc extract_links ((c :: c2 :: g'') ++ rest)
          = extract_links (c :: c2 :: (g'' ++ rest)) := by simp
        _ = extract_links (c2 :: (g'' ++ rest)) := extract_links_cons2_skip h1 _
        _ = extract_links ((c2 :: g'') ++ rest) := by simp
        _ = extract_links rest := ih rest h2

theorem extract_links_match_step {t : List Char} (hne : ¬ t = [])
    (ht : ∀ c ∈ t, ¬ c = ']') (rest : List Char) :
    extract_links ('[' :: '[' :: (t ++ ']' :: ']' :: rest)) = t :: extract_links rest := by
  have htk : takeNonRB (t ++ ']' :: ']' :: rest) = (t, ']' :: ']' :: rest) :=
    takeNonRB_clean ht (']' :: rest)
  obtain ⟨c0, t', rfl⟩ : ∃ c0 t', t = c0 :: t' := by
    cases t with
    | nil => exact absurd rfl hne
    | cons c0 t' => exact ⟨c0, t', rfl⟩
  have hm : matchLink ((c0 :: t') ++ ']' :: ']' :: rest) = some (c0 :: t', rest) := by
    unfold matchLink
    rw [htk]
    rfl
  have hcond : ('[' : Char) = '[' ∧ ('[' : Char) = '[' := ⟨rfl, rfl⟩
  show extractLinksFuel (((c0 :: t') ++ ']' :: ']' :: rest).length + 1 + 1)
      ('[' :: '[' :: ((c0 :: t') ++ ']' :: ']' :: rest)) = _
  simp only [extractLinksFuel, if_pos hcond, hm]
  have : extractLinksFuel (((c0 :: t') ++ ']' :: ']' :: rest).length + 1) rest
      = extractLinksFuel rest.length rest := by
    apply extractLinksFuel_mono
    · simp
      omega
    · exact Nat.le_refl _
  rw [this]
  rfl

theorem takeNonRB_run_clean : ∀ cs : List Char, ∀ c ∈ (takeNonRB cs).1, ¬ c = ']' := by
  intro cs
  induction cs with
  | nil => intro c hc; simp [takeNonRB] at hc
  | cons c0 cs ih =>
    intro c hc
    by_cases h0 : c0 = ']'
    · simp [takeNonRB, h0] at hc
    · simp only [takeNonRB, if_neg h0] at hc
      rcases List.mem_cons.mp hc with rfl | hmem
      · exact h0
      · exact ih c hmem

theorem matchLink_sound {cs run rest : List Char}
    (h : matchLink cs = some (run, rest)) :
    ¬ run = [] ∧ (∀ c ∈ run, ¬ c = ']') ∧ cs = run ++ ']' :: ']' :: rest := by
  have hsplit := takeNonRB_append cs
  have hclean := takeNonRB_run_clean cs
  unfold matchLink at h
  split at h
  · exact absurd h (by simp)
  · rename_i heq
    rw [heq] at hsplit hclean
    injection h with h
    injection h with h1 h2
    subst h1
    subst h2
    exact ⟨by simp, fun c hc => hclean c hc, hsplit.symm⟩
  · exact absurd h (by simp)

theorem extractLinksFuel_sound :
    ∀ (fuel : Nat) (cs : List Char), ∀ t ∈ extractLinksFuel fuel cs,
      ¬ t = [] ∧ (∀ c ∈ t, ¬ c = ']') ∧
      List.IsInfix ('[' :: '[' :: (t ++ [']', ']'])) cs := by
  intro fuel
  induction fuel with
  | zero => intro cs t ht; simp [extractLinksFuel] at ht
  | succ f ih =>
    intro cs t ht
    match cs with
    | [] => simp [extractLinksFuel] at ht
    | [c] => simp [extractLinksFuel] at ht
    | c1 :: c2 :: cs' =>
      simp only [extractLinksFuel] at ht
      split at ht
      · rename_i hbr
        split at ht
        · rename_i run rest hm
          obtain ⟨hne2, hclean2, hshape⟩ := matchLink_sound hm
          rcases List.mem_cons.mp ht with rfl | hmem
          · refine ⟨hne2, hclean2, [], rest, ?_⟩
            obtain ⟨hb1, hb2⟩ := hbr
            subst hb1
            subst hb2
            rw [hshape]
            simp
          · obtain ⟨hne, hclean, s, u, hsu⟩ := ih rest t hmem
            refine ⟨hne, hclean, c1 :: c2 :: (run ++ ']' :: ']' :: s), u, ?_⟩
            rw [hshape, ← hsu]
            simp
        · obtain ⟨hne, hclean, s, u, hsu⟩ := ih (c2 :: cs') t ht
          exact ⟨hne, hclean, c1 :: s, u, by rw [← hsu]; simp⟩
      · obtain ⟨hne, hclean, s, u, hsu⟩ := ih (c2 :: cs') t ht
        exact ⟨hne, hclean, c1 :: s, u, by rw [← hsu]; simp⟩

/-- Concatenation scheme for the amended C1 statement: alternate a gap, an
opening `[[`, an inner text, a closing `]]`, and finish with a final gap. -/
def renderLinks : List (List Char × List Char) → List Char → List Char
  | [], tail => tail
  | (g, t) :: ps, tail => g ++ '[' :: '[' :: (t ++ ']' :: ']' :: renderLinks ps tail)

theorem extract_links_render_exact :
    ∀ (ps : List (List Char × List Char)) (tail : List Char),
      (∀ p ∈ ps, hasLL (p.1 ++ ['[']) = false ∧ ¬ p.2 = [] ∧ (∀ c ∈ p.2, ¬ c = ']')) →
      hasLL tail = false →
      extract_links (renderLinks ps tail) = ps.map Prod.snd := by
  intro ps
  induction ps with
  | nil =>
    intro tail _ htail
    have h := extract_links_gap_skip tail [] (by simpa using htail)
    rw [List.append_nil] at h
    exact h
  | cons p ps ih =>
    intro tail hps htail
    obtain ⟨g, t⟩ := p
    have hp := hps (g, t) (by simp)
    have hrest : ∀ p ∈ ps, hasLL (p.1 ++ ['[']) = false ∧ ¬ p.2 = [] ∧ (∀ c ∈ p.2, ¬ c = ']') :=
      fun p hmem => hps p (by simp [hmem])
    show extract_links (g ++ '[' :: '[' :: (t ++ ']' :: ']' :: renderLinks ps tail)) = _
    rw [extract_links_gap_skip g ('[' :: '[' :: (t ++ ']' :: ']' :: renderLinks ps tail)) hp.1,
      extract_links_match_step hp.2.1 hp.2.2, ih tail hrest htail]
    rfl

/-- C1 amended: both failures of the original claim trace to the regex piece
`[^\]]+`, which demands a nonempty inner text containing no `]`.  What does
hold of `extract_links`: (1) on every input, each returned string is a
nonempty `]`-free text that occurs in the input wrapped between `[[` and
`]]`; and (2) on every input assembled from `[[...]]` pairs whose inner
texts are nonempty and `]`-free, separated by gaps in which no match can
start (no two adjacent `[`, and not ending in `[` right before a pair's
opener), the result is exactly the inner texts of the pairs, in order of
first appearance, duplicates preserved.  Pairs with an empty inner text or
whose nearest-`]]` inner text contains `]` are not matched at all (see the
counterexample). -/
theorem extract_links_exact :
    (∀ cs : List Char, ∀ t ∈ extract_links cs,
        ¬ t = [] ∧ (∀ c ∈ t, ¬ c = ']') ∧
        List.IsInfix ('[' :: '[' :: (t ++ [']', ']'])) cs) ∧
    (∀ (ps : List (List Char × List Char)) (tail : List Char),
        (∀ p ∈ ps, hasLL (p.1 ++ ['[']) = false ∧ ¬ p.2 = [] ∧ (∀ c ∈ p.2, ¬ c = ']')) →
        hasLL tail = false →
        extract_links (renderLinks ps tail) = ps.map Prod.snd) :=
  ⟨fun cs t ht => extractLinksFuel_sound cs.length cs t ht,
   extract_links_render_exact⟩

/-- Witness for the amended C1 theorem: part (1) applied to the link `B`
found in `a[[B]]c`, and part (2) applied to a gap that contains a lone `[`
(`x[y[[A]]`) and to a duplicate title (`see [[A]][[A]] tail`). -/
theorem extract_links_exact_witness :
    (¬ "B".toList = [] ∧
      List.IsInfix ('[' :: '[' :: ("B".toList ++ [']', ']'])) ("a[[B]]c".toList)) ∧
    extract_links (renderLinks [("x[y".toList, "A".toList)] []) = ["A".toList] ∧
    extract_links (renderLinks [("see ".toList, "A".toList), ([], "A".toList)] " tail".toList)
      = ["A".toList, "A".toList] :=
  ⟨⟨(extract_links_exact.1 ("a[[B]]c".toList) ("B".toList) (by decide)).1,
    (extract_links_exact.1 ("a[[B]]c".toList) ("B".toList) (by decide)).2.2⟩,
   extract_links_exact.2 [("x[y".toList, "A".toList)] [] (by decide) (by decide),
   extract_links_exact.2 [("see ".toList, "A".toList), ([], "A".toList)] (" tail".toList)
     (by decide) (by decide)⟩

/-- C1 counterexample: two inputs on which the original claim fails.  On
`[[]]` the claim demands the empty inner string among the results; on
`[[a]b]]` — a `[[...]]` pair in which the literal `]]` closes the nearest
preceding `[[` around the inner text `a]b` — it demands `a]b`.  On both
inputs `extract_links` returns no link at all: the regex piece `[^\]]+`
requires at least one character and forbids `]` inside the captured
group. -/
theorem extract_links_missing_pairs :
    extract_links ("[[]]".toList) = [] ∧
    ¬ ([] ∈ extract_links ("[[]]".toList)) ∧
    extract_links ("[[a]b]]".toList) = [] ∧
    ¬ ("a]b".toList ∈ extract_links ("[[a]b]]".toList)) := by
  decide

/-- C10: the two link-parsing functions of src/utils.py, `extract_note_links`
and `extract_links`, call `re.findall` with character-identical raw patterns
(`\[\[([^\]]+)\]\]`), so they agree on every input string. -/
theorem extract_note_links_eq_extract_links :
    ∀ s : List Char, extract_note_links s = extract_links s :=
  fun _ => rfl

/-- Row of the `notes` table (src/models.py): id, title, content, owner.
The server-side timestamps are set by the database, not by the code under
verification, and no claim depends on them. -/
structure Note where
  id : Nat
  title : List Char
  content : List Char
  user_id : Nat
deriving DecidableEq

/-- Process-local Redis cache: each entry is a key, the cached owner note
list, and the absolute instant at which the entry expires. -/
abbrev RCache := List (List Char × List Note × Nat)

/-- Redis `GET key` at instant `now`: the stored value while it has not
expired, otherwise nothing. -/
def redisGet (c : RCache) (k : List Char) (now : Nat) : Option (List Note) :=
  match c.find? (fun e => decide (e.1 = k)) with
  | some e => if now < e.2.2 then some e.2.1 else none
  | none => none

/-- Redis `DELETE key`: drop every entry stored under `k`, nothing else. -/
def redisDel (c : RCache) (k : List Char) : RCache :=
  c.filter (fun e => decide (¬ e.1 = k))

/-- Redis `SET key value ex=ttl` issued at `now` with absolute expiry
`expiry = now + ttl`: replaces any previous entry under the key. -/
def redisSetEx (c : RCache) (k : List Char) (v : List Note) (expiry : Nat) : RCache :=
  (k, v, expiry) :: redisDel c k

/-- src/plsnb.py line 127 and line 57: the cache key is the Python f-string
`"notes_user_"` followed by the owner id. -/
def cacheKey (uid : Nat) : List Char :=
  ("notes_user_" ++ toString uid).toList

/-- src/plsnb.py, `invalidate_notes_cache`: delete the owner's cache key. -/
def invalidate_notes_cache (c : RCache) (uid : Nat) : RCache :=
  redisDel c (cacheKey uid)

/-- `db.query(Note).filter(Note.user_id == current.id).all()`. -/
def ownerNotes (db : List Note) (uid : Nat) : List Note :=
  db.filter (fun n => decide (n.user_id = uid))

/-- src/plsnb.py, `get_notes`: read through the cache; on a miss, load the
owner's notes from the store and cache them with `ex=60`. -/
def get_notes (c : RCache) (db : List Note) (uid : Nat) (now : Nat) :
    List Note × RCache :=
  match redisGet c (cacheKey uid) now with
  | some v => (v, c)
  | none =>
    let notes := ownerNotes db uid
    (notes, redisSetEx c (cacheKey uid) notes (now + 60))

/-- Python `str.strip()`: drop whitespace from both ends. -/
def pyStrip (l : List Char) : List Char :=
  ((l.dropWhile Char.isWhitespace).reverse.dropWhile Char.isWhitespace).reverse

/-- `db.query(Note).filter(Note.user_id == user_id, Note.title == title).first()`. -/
def lookupNote (db : List Note) (uid : Nat) (t : List Char) : Option Note :=
  db.find? (fun n => decide (n.user_id = uid ∧ n.title = t))

/-- Stub rows produced by one `upsert_stub_notes` call (src/plsnb.py lines
60-82).  Because the session is built with `autoflush=False`
(src/database.py line 9), each in-loop query runs against the database
state `db` as it was when the call began: rows pending via `session.add`
are not flushed and stay invisible until the final `commit()`.  Fresh uuids
are modelled by the counter `fresh`. -/
def stubsFor (db : List Note) (uid : Nat) : List (List Char) → Nat → List Note
  | [], _ => []
  | t :: ts, fresh =>
    if pyStrip t = [] then stubsFor db uid ts fresh
    else
      match lookupNote db uid (pyStrip t) with
      | some _ => stubsFor db uid ts fresh
      | none =>
        { id := fresh, title := pyStrip t, content := [], user_id := uid }
          :: stubsFor db uid ts (fresh + 1)

/-- src/plsnb.py, `upsert_stub_notes`: the final `commit()` appends every
pending stub to the store; the function also advances the uuid supply. -/
def upsert_stub_notes (db : List Note) (uid : Nat) (ts : List (List Char)) (fresh : Nat) :
    List Note × Nat :=
  (db ++ stubsFor db uid ts fresh, fresh + (stubsFor db uid ts fresh).length)

/-- src/plsnb.py, `process_links_for_note`: extract the titles of the note
content and materialize stubs only when at least one title was found. -/
def process_links (db : List Note) (uid : Nat) (content : List Char) (fresh : Nat) :
    List Note × Nat :=
  let titles := extract_links content
  if titles = [] then (db, fresh) else upsert_stub_notes db uid titles fresh

/-- Outcome of a successful note mutation: the new store, the new cache,
the advanced uuid supply and the note returned to the caller. -/
structure MutResult where
  db : List Note
  cache : RCache
  fresh : Nat
  note : Note
deriving DecidableEq

/-- Outcome of a successful delete: the new store and the new cache. -/
structure DelResult where
  db : List Note
  cache : RCache
deriving DecidableEq

/-- src/plsnb.py, `create_note`: insert the note exactly as sent (the
pydantic model `NoteCreate` of src/schemas.py declares `title: str` and
`content: str` with no further constraint, so any strings pass), then run
the stub materializer on its content and invalidate the owner's cache. -/
def create_note (db : List Note) (c : RCache) (fresh : Nat) (uid : Nat)
    (title content : List Char) : MutResult :=
  let n : Note := { id := fresh, title := title, content := content, user_id := uid }
  let p := process_links (db ++ [n]) uid content (fresh + 1)
  { db := p.1, cache := invalidate_notes_cache c uid, fresh := p.2, note := n }

/-- src/plsnb.py, `update_note`: 404 (`none`) when no note of the owner has
the id; otherwise replace title and content wholesale, re-run the stub
materializer on the new content and invalidate the owner's cache. -/
def update_note (db : List Note) (c : RCache) (fresh : Nat) (uid : Nat)
    (nid : Nat) (title content : List Char) : Option MutResult :=
  match db.find? (fun n => decide (n.id = nid ∧ n.user_id = uid)) with
  | none => none
  | some old =>
    let updated : Note := { old with title := title, content := content }
    let db1 := db.map (fun n =>
      if n.id = nid ∧ n.user_id = uid then { n with title := title, content := content } else n)
    let p := process_links db1 uid content fresh
    some { db := p.1, cache := invalidate_notes_cache c uid, fresh := p.2, note := updated }

/-- src/plsnb.py, `delete_note`: 404 (`none`) when no note of the owner has
the id; otherwise remove the row and invalidate the owner's cache. -/
def delete_note (db : List Note) (c : RCache) (uid : Nat) (nid : Nat) :
    Option DelResult :=
  match db.find? (fun n => decide (n.id = nid ∧ n.user_id = uid)) with
  | none => none
  | some note =>
    some { db := db.filter (fun n => decide (¬ n.id = note.id)),
           cache := invalidate_notes_cache c uid }

/-- src/plsnb.py, `get_note_with_links`: resolve the note, its outgoing
links (one `IN` query over the extracted titles, issued only when the title
list is nonempty) and its backlinks (scan of the owner's other notes whose
content mentions the note title). -/
def get_note_with_links (db : List Note) (uid : Nat) (nid : Nat) :
    Option (Note × List Note × List Note) :=
  match db.find? (fun n => decide (n.id = nid ∧ n.user_id = uid)) with
  | none => none
  | some note =>
    let outTitles := extract_links note.content
    let outgoing :=
      if outTitles = [] then []
      else db.filter (fun n => decide (n.user_id = uid ∧ n.title ∈ outTitles))
    let candidates := db.filter (fun n => decide (n.user_id = uid ∧ ¬ n.id = note.id))
    let backlinks := candidates.filter (fun cand => decide (note.title ∈ extract_links cand.content))
    some (note, outgoing, backlinks)

theorem redisGet_del_self (c : RCache) (k : List Char) (now : Nat) :
    redisGet (redisDel c k) k now = none := by
  unfold redisGet
  suffices h : (redisDel c k).find? (fun e => decide (e.1 = k)) = none by
    rw [h]
  rw [List.find?_eq_none]
  intro e he
  have := List.of_mem_filter he
  simp at this ⊢
  exact this

theorem redisDel_find?_other (c : RCache) (k k' : List Char) (hkk : ¬ k' = k) :
    (redisDel c k).find? (fun e => decide (e.1 = k'))
      = c.find? (fun e => decide (e.1 = k')) := by
  induction c with
  | nil => rfl
  | cons e c ih =>
    simp only [redisDel] at ih ⊢
    by_cases he : e.1 = k
    · rw [List.filter_cons_of_neg (by simp [he])]
      rw [ih]
      rw [List.find?_cons_of_neg _ (by simp [he]; intro h; exact hkk h.symm)]
    · rw [List.filter_cons_of_pos (by simp [he])]
      by_cases he' : e.1 = k'
      · rw [List.find?_cons_of_pos _ (by simp [he']), List.find?_cons_of_pos _ (by simp [he'])]
      · rw [List.find?_cons_of_neg _ (by simp [he']), List.find?_cons_of_neg _ (by simp [he']), ih]

theorem redisGet_del_other (c : RCache) (k k' : List Char) (now : Nat) (hkk : ¬ k' = k) :
    redisGet (redisDel c k) k' now = redisGet c k' now := by
  unfold redisGet
  rw [redisDel_find?_other c k k' hkk]

theorem get_notes_miss {c : RCache} {uid now : Nat} (db : List Note)
    (h : redisGet c (cacheKey uid) now = none) :
    get_notes c db uid now
      = (ownerNotes db uid,
         redisSetEx c (cacheKey uid) (ownerNotes db uid) (now + 60)) := by
  unfold get_notes
  rw [h]

/-- C4: after a successful create, update or delete for owner `uid`, the
owner's cache key has been deleted, so the next `get_notes` read takes the
cache-miss branch: it returns the owner's notes recomputed from the store
and writes a fresh cache entry — regardless of any prior entry's TTL
state, since `redis_client.delete` removes the entry unconditionally. -/
theorem mutations_invalidate_cache (db : List Note) (c : RCache) (fresh uid : Nat)
    (title content : List Char) (nid now : Nat) :
    (get_notes (create_note db c fresh uid title content).cache
        (create_note db c fresh uid title content).db uid now
      = (ownerNotes (create_note db c fresh uid title content).db uid,
         redisSetEx (create_note db c fresh uid title content).cache (cacheKey uid)
           (ownerNotes (create_note db c fresh uid title content).db uid) (now + 60))) ∧
    (∀ r : MutResult, update_note db c fresh uid nid title content = some r →
      get_notes r.cache r.db uid now
        = (ownerNotes r.db uid,
           redisSetEx r.cache (cacheKey uid) (ownerNotes r.db uid) (now + 60))) ∧
    (∀ r : DelResult, delete_note db c uid nid = some r →
      get_notes r.cache r.db uid now
        = (ownerNotes r.db uid,
           redisSetEx r.cache (cacheKey uid) (ownerNotes r.db uid) (now + 60))) := by
  refine ⟨?_, ?_, ?_⟩
  · exact get_notes_miss _ (redisGet_del_self c (cacheKey uid) now)
  · intro r h
    unfold update_note at h
    cases hf : db.find? (fun n => decide (n.id = nid ∧ n.user_id = uid)) with
    | none => rw [hf] at h; exact absurd h (by simp)
    | some old =>
      rw [hf] at h
      simp only [Option.some.injEq] at h
      subst h
      exact get_notes_miss _ (redisGet_del_self c (cacheKey uid) now)
  · intro r h
    unfold delete_note at h
    cases hf : db.find? (fun n => decide (n.id = nid ∧ n.user_id = uid)) with
    | none => rw [hf] at h; exact absurd h (by simp)
    | some old =>
      rw [hf] at h
      simp only [Option.some.injEq] at h
      subst h
      exact get_notes_miss _ (redisGet_del_self c (cacheKey uid) now)

/-- Witness for C4 at concrete inputs: a successful update and a successful
delete of the only note of owner 7, each followed by a cache-miss read. -/
theorem mutations_invalidate_cache_witness :
    get_notes ([] : RCache) [Note.mk 1 ['B'] [] 7] 7 0
      = (ownerNotes [Note.mk 1 ['B'] [] 7] 7,
         redisSetEx [] (cacheKey 7) (ownerNotes [Note.mk 1 ['B'] [] 7] 7) 60) ∧
    get_notes ([] : RCache) ([] : List Note) 7 0
      = (ownerNotes [] 7, redisSetEx [] (cacheKey 7) (ownerNotes [] 7) 60) :=
  ⟨(mutations_invalidate_cache [Note.mk 1 ['A'] [] 7] [] 5 7 ['B'] [] 1 0).2.1
      (MutResult.mk [Note.mk 1 ['B'] [] 7] [] 5 (Note.mk 1 ['B'] [] 7)) rfl,
   (mutations_invalidate_cache [Note.mk 1 ['A'] [] 7] [] 5 7 ['B'] [] 1 0).2.2
      (DelResult.mk [] []) rfl⟩

/-- C8 amended: cache entries written by the list-notes read are keyed by
`"notes_user_<owner_id>"` (not `"notes_owner_<owner_id>"` as the claim
states — see the counterexample), are stored with a TTL of 60 time units,
and invalidation deletes exactly that key, leaving every other key
untouched. -/
theorem cache_key_ttl_delete (c : RCache) (db : List Note) (uid now t : Nat)
    (k : List Char) (hmiss : redisGet c (cacheKey uid) now = none) :
    (t < now + 60 →
      redisGet (get_notes c db uid now).2 (cacheKey uid) t = some (ownerNotes db uid)) ∧
    (now + 60 ≤ t →
      redisGet (get_notes c db uid now).2 (cacheKey uid) t = none) ∧
    redisGet (invalidate_notes_cache c uid) (cacheKey uid) t = none ∧
    (¬ k = cacheKey uid →
      redisGet (invalidate_notes_cache c uid) k t = redisGet c k t) ∧
    cacheKey uid = ("notes_user_" ++ toString uid).toList := by
  have hsnd : (get_notes c db uid now).2
      = redisSetEx c (cacheKey uid) (ownerNotes db uid) (now + 60) := by
    rw [get_notes_miss db hmiss]
  refine ⟨?_, ?_, ?_, ?_, rfl⟩
  · intro ht
    rw [hsnd]
    unfold redisSetEx redisGet
    rw [List.find?_cons_of_pos _ (by simp)]
    simp [ht]
  · intro ht
    rw [hsnd]
    unfold redisSetEx redisGet
    rw [List.find?_cons_of_pos _ (by simp)]
    simp
    omega
  · exact redisGet_del_self c (cacheKey uid) t
  · intro hk
    exact redisGet_del_other c (cacheKey uid) k t hk

/-- Witness for the amended C8 theorem: on an empty cache at instant 0, the
entry written for owner 5 is readable at instant 10, expired at instant 60,
and gone right after invalidation. -/
theorem cache_key_ttl_delete_witness :
    redisGet (get_notes [] [] 5 0).2 (cacheKey 5) 10 = some (ownerNotes [] 5) ∧
    redisGet (get_notes [] [] 5 0).2 (cacheKey 5) 60 = none ∧
    redisGet (invalidate_notes_cache [] 5) (cacheKey 5) 10 = none :=
  ⟨(cache_key_ttl_delete [] [] 5 0 10 ['x'] rfl).1 (by decide),
   (cache_key_ttl_delete [] [] 5 0 60 ['x'] rfl).2.1 (by decide),
   (cache_key_ttl_delete [] [] 5 0 10 ['x'] rfl).2.2.1⟩

/-- C8 counterexample: the entry the list-notes read writes for owner 5 is
keyed `"notes_user_5"`, and that key differs from the `"notes_owner_5"` the
claim prescribes. -/
theorem cache_key_not_owner :
    (get_notes [] [] 5 0).2 = [(("notes_user_5").toList, [], 60)] ∧
    ¬ cacheKey 5 = ("notes_owner_5").toList := by
  constructor
  · rfl
  · decide

theorem stubsFor_spec (db : List Note) (uid : Nat) :
    ∀ (ts : List (List Char)) (f : Nat) (n : Note), n ∈ stubsFor db uid ts f →
      n.user_id = uid ∧ n.content = [] ∧ lookupNote db uid n.title = none := by
  intro ts
  induction ts with
  | nil => intro f n hn; simp [stubsFor] at hn
  | cons t ts ih =>
    intro f n hn
    simp only [stubsFor] at hn
    split at hn
    · exact ih f n hn
    · split at hn
      · exact ih f n hn
      · rename_i hs hl
        rcases List.mem_cons.mp hn with h | h
        · subst h
          exact ⟨rfl, rfl, hl⟩
        · exact ih (f + 1) n h

theorem stubsFor_covers (db : List Note) (uid : Nat) :
    ∀ (ts : List (List Char)) (f : Nat) (t : List Char), t ∈ ts → ¬ pyStrip t = [] →
      lookupNote db uid (pyStrip t) = none →
      ∃ n ∈ stubsFor db uid ts f, n.user_id = uid ∧ n.title = pyStrip t := by
  intro ts
  induction ts with
  | nil => intro f t ht _ _; simp at ht
  | cons t0 ts ih =>
    intro f t ht hs hl
    simp only [stubsFor]
    rcases List.mem_cons.mp ht with heq | hmem
    · subst heq
      rw [if_neg hs, hl]
      exact ⟨_, List.mem_cons_self _ _, rfl, rfl⟩
    · by_cases hs0 : pyStrip t0 = []
      · rw [if_pos hs0]
        exact ih f t hmem hs hl
      · rw [if_neg hs0]
        cases hl0 : lookupNote db uid (pyStrip t0) with
        | some m => exact ih f t hmem hs hl
        | none =>
          obtain ⟨n, hn, hp⟩ := ih (f + 1) t hmem hs hl
          exact ⟨n, List.mem_cons_of_mem _ hn, hp⟩

theorem stubsFor_nil_of_covered (db2 : List Note) (uid : Nat) :
    ∀ (ts : List (List Char)) (f : Nat),
      (∀ t ∈ ts, ¬ pyStrip t = [] → (lookupNote db2 uid (pyStrip t)).isSome) →
      stubsFor db2 uid ts f = [] := by
  intro ts
  induction ts with
  | nil => intro f _; rfl
  | cons t0 ts ih =>
    intro f h
    simp only [stubsFor]
    by_cases hs0 : pyStrip t0 = []
    · rw [if_pos hs0]
      exact ih f (fun t ht => h t (List.mem_cons_of_mem _ ht))
    · rw [if_neg hs0]
      have hsome := h t0 (List.mem_cons_self _ _) hs0
      cases hl0 : lookupNote db2 uid (pyStrip t0) with
      | some m => exact ih f (fun t ht => h t (List.mem_cons_of_mem _ ht))
      | none => rw [hl0] at hsome; simp at hsome

/-- C5: the stub materializer is idempotent.  Running `upsert_stub_notes`
a second time, immediately after a first run with the same titles, leaves
the store and the uuid supply unchanged: every nonempty stripped title now
has a matching committed note (either it already had one, or the first run
created a stub for it), so the second run inserts zero notes. -/
theorem upsert_stub_notes_idempotent (db : List Note) (uid : Nat)
    (ts : List (List Char)) (f : Nat) :
    upsert_stub_notes (upsert_stub_notes db uid ts f).1 uid ts
        (upsert_stub_notes db uid ts f).2
      = upsert_stub_notes db uid ts f := by
  have hnil : stubsFor (db ++ stubsFor db uid ts f) uid ts
      (f + (stubsFor db uid ts f).length) = [] := by
    apply stubsFor_nil_of_covered
    intro t ht hs
    unfold lookupNote
    rw [List.find?_append]
    cases hl : lookupNote db uid (pyStrip t) with
    | some m =>
      unfold lookupNote at hl
      rw [hl]
      rfl
    | none =>
      obtain ⟨n, hn, hu, htitle⟩ := stubsFor_covers db uid ts f t ht hs hl
      unfold lookupNote at hl
      rw [hl]
      simp only [Option.none_or]
      rw [List.find?_isSome]
      exact ⟨n, hn, by simp [hu, htitle]⟩
  unfold upsert_stub_notes
  rw [hnil]
  simp

theorem stub_count_per_occurrence (db : List Note) (uid : Nat) :
    ∀ (ts : List (List Char)) (f : Nat),
      (stubsFor db uid ts f).length
        = ts.countP (fun t => decide (¬ pyStrip t = [] ∧ lookupNote db uid (pyStrip t) = none)) := by
  intro ts
  induction ts with
  | nil => intro f; rfl
  | cons t0 ts ih =>
    intro f
    simp only [stubsFor, List.countP_cons]
    by_cases hs0 : pyStrip t0 = []
    · rw [if_pos hs0]
      simp [hs0, ih f]
    · rw [if_neg hs0]
      cases hl0 : lookupNote db uid (pyStrip t0) with
      | some m => simp [hs0, hl0, ih f]
      | none => simp [hs0, hl0, ih (f + 1)]

/-- C6 amended: within a single `upsert_stub_notes` call the lookups run
against the store as it was when the call began — `database.py` builds the
session with `autoflush=False`, so the stub pending for the first occurrence
of a title is invisible to the lookup for the second occurrence.  The call
therefore creates exactly one stub per occurrence (not per distinct title)
of a nonempty-stripped title that had no matching note beforehand: two
identical input titles double-create instead of deduplicating. -/
theorem upsert_stub_one_per_occurrence (db : List Note) (uid : Nat)
    (ts : List (List Char)) (f : Nat) :
    (upsert_stub_notes db uid ts f).1.length
      = db.length + ts.countP (fun t =>
          decide (¬ pyStrip t = [] ∧ lookupNote db uid (pyStrip t) = none)) := by
  unfold upsert_stub_notes
  simp [stub_count_per_occurrence]

/-- C6 counterexample: on an empty store, one call with the duplicate title
list `["B", "B"]` creates two stub notes titled `B` — the lookup for the
second occurrence does not find the stub pending for the first, so more
than one stub is created for a single distinct title in one call. -/
theorem duplicate_titles_double_create :
    (upsert_stub_notes [] 0 [['B'], ['B']] 0).1
      = [Note.mk 0 ['B'] [] 0, Note.mk 1 ['B'] [] 0] ∧
    ¬ ((upsert_stub_notes [] 0 [['B'], ['B']] 0).1.filter
        (fun n => decide (n.title = ['B']))).length ≤ 1 := by
  decide

/-- C9: stub materialization never modifies a pre-existing note — the whole
prior store survives as an unchanged prefix (same ids, titles, contents and
owners) — and every inserted row is an empty-content stub of the given
owner whose title had no matching `(owner, title)` note beforehand. -/
theorem upsert_preserves_existing (db : List Note) (uid : Nat)
    (ts : List (List Char)) (f : Nat) :
    ∃ created : List Note,
      (upsert_stub_notes db uid ts f).1 = db ++ created ∧
      ∀ n ∈ created, n.user_id = uid ∧ n.content = [] ∧ lookupNote db uid n.title = none :=
  ⟨stubsFor db uid ts f, rfl, fun n hn => stubsFor_spec db uid ts f n hn⟩

/-- C2 counterexample: a note whose content references its own title is
returned inside its own outgoing-links list — the outgoing query filters
only on owner and title membership, with no exclusion by id (src/plsnb.py
lines 204-210), so the claim that resolution never includes the note itself
in the outgoing sequence is false. -/
theorem self_link_in_outgoing :
    get_note_with_links [Note.mk 1 ['A'] ("see [[A]]".toList) 7] 7 1
      = some (Note.mk 1 ['A'] ("see [[A]]".toList) 7,
              [Note.mk 1 ['A'] ("see [[A]]".toList) 7], []) := by
  decide

/-- C2 amended: only the backlink direction excludes the note itself, by an
id check on the candidate query; the outgoing direction has no such check
and does include the note when its content references its own title. -/
theorem backlinks_exclude_self (db : List Note) (uid nid : Nat) (note : Note)
    (out back : List Note) (b : Note)
    (h : get_note_with_links db uid nid = some (note, out, back)) (hb : b ∈ back) :
    ¬ b.id = note.id := by
  unfold get_note_with_links at h
  cases hf : db.find? (fun n => decide (n.id = nid ∧ n.user_id = uid)) with
  | none => rw [hf] at h; exact absurd h (by simp)
  | some found =>
    rw [hf] at h
    simp only [Option.some.injEq, Prod.mk.injEq] at h
    obtain ⟨hnote, _, hback⟩ := h
    subst hnote
    subst hback
    have hcand := (List.mem_filter.mp hb).1
    have := List.of_mem_filter hcand
    simp only [decide_eq_true_eq] at this
    exact this.2

/-- Witness for the amended C2 theorem: note 2 links to note 1's title, is
listed among note 1's backlinks, and indeed has a different id. -/
theorem backlinks_exclude_self_witness :
    ¬ (Note.mk 2 ['B'] ("[[A]]".toList) 7).id = (Note.mk 1 ['A'] [] 7).id :=
  backlinks_exclude_self
    [Note.mk 1 ['A'] [] 7, Note.mk 2 ['B'] ("[[A]]".toList) 7] 7 1
    (Note.mk 1 ['A'] [] 7) [] [Note.mk 2 ['B'] ("[[A]]".toList) 7]
    (Note.mk 2 ['B'] ("[[A]]".toList) 7) rfl (by decide)

/-- C7 counterexample: note 1 references `[[C]]` before `[[B]]`, but the
outgoing list comes back in store order (note B was inserted before note C),
not in the order the titles first appear in the content: the code issues a
single `IN` query and never reorders its rows, so the claimed ordering is
false. -/
theorem outgoing_order_is_store_order :
    get_note_with_links
        [Note.mk 1 ['X'] ("[[C]][[B]]".toList) 7,
         Note.mk 2 ['B'] [] 7, Note.mk 3 ['C'] [] 7] 7 1
      = some (Note.mk 1 ['X'] ("[[C]][[B]]".toList) 7,
              [Note.mk 2 ['B'] [] 7, Note.mk 3 ['C'] [] 7], []) ∧
    ¬ [Note.mk 2 ['B'] [] 7, Note.mk 3 ['C'] [] 7]
        = [Note.mk 3 ['C'] [] 7, Note.mk 2 ['B'] [] 7] := by
  decide

/-- C7 amended: the outgoing-links sequence is the subsequence of the store,
in store order, of exactly those notes of the owner whose title occurs among
the titles extracted from the note content; titles with no matching note
are silently omitted.  (The original ordering claim — by first appearance
of the title in the content — is refuted by the counterexample.) -/
theorem outgoing_links_characterization (db : List Note) (uid nid : Nat) (note : Note)
    (out back : List Note)
    (h : get_note_with_links db uid nid = some (note, out, back)) :
    List.Sublist out db ∧
    (∀ n ∈ out, n.user_id = uid ∧ n.title ∈ extract_links note.content) ∧
    (∀ n ∈ db, n.user_id = uid → n.title ∈ extract_links note.content → n ∈ out) := by
  unfold get_note_with_links at h
  cases hf : db.find? (fun n => decide (n.id = nid ∧ n.user_id = uid)) with
  | none => rw [hf] at h; exact absurd h (by simp)
  | some found =>
    rw [hf] at h
    simp only [Option.some.injEq, Prod.mk.injEq] at h
    obtain ⟨hnote, hout, _⟩ := h
    subst hnote
    subst hout
    by_cases hti : extract_links found.content = []
    · rw [if_pos hti]
      refine ⟨List.nil_sublist db, ?_, ?_⟩
      · intro n hn
        simp at hn
      · intro n _ _ htl
        rw [hti] at htl
        simp at htl
    · rw [if_neg hti]
      refine ⟨List.filter_sublist db, ?_, ?_⟩
      · intro n hn
        have := List.of_mem_filter hn
        simpa using this
      · intro n hn hu htl
        rw [List.mem_filter]
        exact ⟨hn, by simp [hu, htl]⟩

/-- Witness for the amended C7 theorem: the outgoing list of the
counterexample scenario is a store-order subsequence of the store. -/
theorem outgoing_links_characterization_witness :
    List.Sublist [Note.mk 2 ['B'] [] 7, Note.mk 3 ['C'] [] 7]
      [Note.mk 1 ['X'] ("[[C]][[B]]".toList) 7,
       Note.mk 2 ['B'] [] 7, Note.mk 3 ['C'] [] 7] :=
  (outgoing_links_characterization
    [Note.mk 1 ['X'] ("[[C]][[B]]".toList) 7,
     Note.mk 2 ['B'] [] 7, Note.mk 3 ['C'] [] 7] 7 1
    (Note.mk 1 ['X'] ("[[C]][[B]]".toList) 7)
    [Note.mk 2 ['B'] [] 7, Note.mk 3 ['C'] [] 7] [] rfl).1

/-- C3 counterexample: a create request whose title and content are
whitespace-only (hence empty after trimming) does not fail — the pydantic
schema `NoteCreate` declares plain `str` fields with no constraint and the
route performs no check — and a row is written to the store. -/
theorem empty_fields_still_written :
    pyStrip [' '] = [] ∧
    (create_note [] [] 0 7 [' '] [' ']).db = [Note.mk 0 [' '] [' '] 7] := by
  decide

theorem process_links_keeps_db (db : List Note) (uid : Nat) (ct : List Char) (f : Nat) :
    ∃ s, (process_links db uid ct f).1 = db ++ s := by
  unfold process_links
  by_cases h : extract_links ct = []
  · rw [if_pos h]
    exact ⟨[], by simp⟩
  · rw [if_neg h]
    exact ⟨stubsFor db uid (extract_links ct) f, rfl⟩

theorem mem_map_self_update (db : List Note) (nid uid : Nat) (title content : List Char)
    (old : Note) (hold : old ∈ db) (hcond : old.id = nid ∧ old.user_id = uid) :
    ({ old with title := title, content := content } : Note)
      ∈ db.map (fun n => if n.id = nid ∧ n.user_id = uid
          then { n with title := title, content := content } else n) := by
  have hmap := List.mem_map_of_mem (fun n => if n.id = nid ∧ n.user_id = uid
      then { n with title := title, content := content } else n) hold
  simpa [hcond.1, hcond.2] using hmap

/-- C3 amended: create and update perform no emptiness validation at all —
any strings pass, including empty or whitespace-only ones, and the note is
written to the store with exactly the submitted title and content. -/
theorem no_emptiness_validation (db : List Note) (c : RCache) (fresh uid nid : Nat)
    (title content : List Char) :
    ((create_note db c fresh uid title content).note
        = Note.mk fresh title content uid ∧
      (create_note db c fresh uid title content).note
        ∈ (create_note db c fresh uid title content).db) ∧
    (∀ r : MutResult, update_note db c fresh uid nid title content = some r →
      r.note.title = title ∧ r.note.content = content ∧ r.note ∈ r.db) := by
  constructor
  · refine ⟨rfl, ?_⟩
    show Note.mk fresh title content uid
      ∈ (process_links (db ++ [Note.mk fresh title content uid]) uid content (fresh + 1)).1
    obtain ⟨s, hs⟩ :=
      process_links_keeps_db (db ++ [Note.mk fresh title content uid]) uid content (fresh + 1)
    rw [hs]
    simp
  · intro r h
    unfold update_note at h
    cases hf : db.find? (fun n => decide (n.id = nid ∧ n.user_id = uid)) with
    | none => rw [hf] at h; exact absurd h (by simp)
    | some old =>
      rw [hf] at h
      simp only [Option.some.injEq] at h
      subst h
      refine ⟨rfl, rfl, ?_⟩
      show ({ old with title := title, content := content } : Note)
        ∈ (process_links (db.map (fun n => if n.id = nid ∧ n.user_id = uid
            then { n with title := title, content := content } else n)) uid content fresh).1
      obtain ⟨s, hs⟩ := process_links_keeps_db (db.map (fun n => if n.id = nid ∧ n.user_id = uid
          then { n with title := title, content := content } else n)) uid content fresh
      rw [hs]
      have hcond : old.id = nid ∧ old.user_id = uid := by
        have := List.find?_some hf
        simpa using this
      exact List.mem_append_left _
        (mem_map_self_update db nid uid title content old (List.mem_of_find?_eq_some hf) hcond)

/-- Witness for the amended C3 theorem: a successful update that replaces
title and content of note 1 with a whitespace-only title and empty content,
both of which end up stored verbatim. -/
theorem no_emptiness_validation_witness :
    (MutResult.mk [Note.mk 1 [' '] [] 7] [] 5 (Note.mk 1 [' '] [] 7)).note.title = [' '] ∧
    (MutResult.mk [Note.mk 1 [' '] [] 7] [] 5 (Note.mk 1 [' '] [] 7)).note.content = [] ∧
    (MutResult.mk [Note.mk 1 [' '] [] 7] [] 5 (Note.mk 1 [' '] [] 7)).note
      ∈ (MutResult.mk [Note.mk 1 [' '] [] 7] [] 5 (Note.mk 1 [' '] [] 7)).db :=
  (no_emptiness_validation [Note.mk 1 ['A'] ['x'] 7] [] 5 7 1 [' '] []).2
    (MutResult.mk [Note.mk 1 [' '] [] 7] [] 5 (Note.mk 1 [' '] [] 7)) rfl
